import Mathlib

/-!
# Verification of the secrethub-cli output-masking engine

Shallow embedding of the `masker` package (`stream`, `IndexedBuffer`) and of
the incremental secret matcher it relies on.  Bytes are modelled as `Char`
values, offsets as `Nat` (the Go code uses non-negative `int64` offsets and
never gets anywhere near overflow in the behaviours claimed).  The
destination `io.Writer` is modelled as a state (`Dest`) whose `write` either
appends the bytes or fails, and locking is dropped since every claim is
about a sequential execution.
-/

set_option linter.unusedVariables false

namespace Masker

/-- The literal redaction marker written by `stream.flush`
(`[]byte("<redacted by SecretHub>")` in the source). -/
def redactionText : List Char := "<redacted by SecretHub>".toList

/-- `IndexedBuffer` from the source: a FIFO byte buffer (`bytes.Buffer`)
plus the monotonically increasing index of the oldest unconsumed byte. -/
structure IndexedBuffer where
  buffer : List Char
  currentIndex : Nat
  deriving Repr, DecidableEq

/-- `IndexedBuffer.CurrentIndex` from the source. -/
def IndexedBuffer.CurrentIndex (b : IndexedBuffer) : Nat :=
  b.currentIndex

/-- `IndexedBuffer.Write` from the source: appends to the tail and returns
the accepted byte count (a `bytes.Buffer` write accepts everything). -/
def IndexedBuffer.Write (b : IndexedBuffer) (p : List Char) : IndexedBuffer × Nat :=
  ({ b with buffer := b.buffer ++ p }, p.length)

/-- `IndexedBuffer.UpToIndex` from the source: pops and returns all bytes up
to the given index.  If `index < currentIndex` it returns an empty slice and
leaves the buffer untouched; otherwise it returns the next
`index - currentIndex` buffered bytes (or all remaining bytes when fewer are
buffered, exactly like `bytes.Buffer.Next`) and advances `currentIndex` to
`index`. -/
def IndexedBuffer.UpToIndex (b : IndexedBuffer) (index : Nat) : List Char × IndexedBuffer :=
  if index < b.currentIndex then ([], b)
  else
    let n := index - b.currentIndex
    (b.buffer.take n, { buffer := b.buffer.drop n, currentIndex := index })

/-- The total number of bytes ever written to an `IndexedBuffer`:
the consumed prefix plus what is still buffered. -/
def IndexedBuffer.totalWritten (b : IndexedBuffer) : Nat :=
  b.currentIndex + b.buffer.length

/-- The `Matches` map (`map[int64]int` in the source), as an association
list from match start offset to match length. -/
def Matches : Type := List (Nat × Nat)

/-- Go map indexing `m[i]`: the length recorded for start offset `i`. -/
def Matches.lookup : Matches → Nat → Option Nat
  | [], _ => none
  | (i, L) :: rest, j => if j = i then some L else Matches.lookup rest j

/-- Go `delete(m, i)`: removes the entry at start offset `i`. -/
def Matches.eraseKey (m : Matches) (index : Nat) : Matches :=
  List.filter (fun e => e.1 != index) m

/-- Modelled from the spec: `Matches.Add` is not under `src/`.  Per §3 the
matches are "stored in a mapping from start-offset to length, keyed uniquely
by start offset", so adding records the length at that start offset,
replacing any previous entry there (map insertion). -/
def Matches.Add (m : Matches) (index : Nat) (length : Nat) : Matches :=
  (index, length) :: Matches.eraseKey m index

/-- Does the nonempty value `t` occur in `hist` starting at position `j`?
(Exact byte-sequence matching; empty values never match, spec §4.2.) -/
def occursAtB (t hist : List Char) (j : Nat) : Bool :=
  !t.isEmpty && ((hist.drop j).take t.length == t)

/-- Modelled from the spec: the `multipleMatcher` is not under `src/`.
Per §4.2 it is a stateful multi-pattern scanner over the whole stream
delivered via successive writes; we keep the delivered history explicitly. -/
structure multipleMatcher where
  secrets : List (List Char)
  history : List Char

/-- Modelled from the spec: the lengths of the known secret values that are
confirmed to occur at position `j` of `hist` and whose end boundary lies
strictly beyond `oldLen` (i.e. the occurrence is newly completed). -/
def newLens (secrets : List (List Char)) (hist : List Char) (oldLen j : Nat) : List Nat :=
  List.map List.length
    (List.filter (fun t => occursAtB t hist j && decide (oldLen < j + t.length)) secrets)

/-- Maximum of a list of naturals (0 on the empty list). -/
def maxNat (l : List Nat) : Nat := l.foldr Nat.max 0

/-- Modelled from the spec: the entry the matcher reports for start offset
`j` after the history has grown from `oldLen` bytes to `hist` — the newly
completed occurrence at `j`, reported "as a mapping from match start offset
to match length" (§4.2); when several values complete at the same start the
single mapping slot holds the longest. -/
def reportAt (secrets : List (List Char)) (hist : List Char) (oldLen j : Nat) : Option Nat :=
  if (newLens secrets hist oldLen j).isEmpty then none
  else some (maxNat (newLens secrets hist oldLen j))

/-- Modelled from the spec: `multipleMatcher.Write` consumes the next chunk
and reports, keyed by start offset, every match whose end boundary is
confirmed within this call (§4.2). -/
def multipleMatcher.Write (m : multipleMatcher) (p : List Char) :
    List (Nat × Nat) × multipleMatcher :=
  let hist := m.history ++ p
  let reports := (List.range hist.length).filterMap
    (fun j => (reportAt m.secrets hist m.history.length j).map (fun L => (j, L)))
  (reports, { m with history := hist })

/-- The destination `io.Writer`: accumulated output plus a failure budget.
`okCalls = none` never fails; `okCalls = some k` accepts the next `k` write
calls and fails on the one after. -/
structure Dest where
  out : List Char
  okCalls : Option Nat
  deriving Repr, DecidableEq

/-- A destination write: appends the bytes, or fails (returns `none`). -/
def Dest.write (d : Dest) (p : List Char) : Option Dest :=
  match d.okCalls with
  | none => some { d with out := d.out ++ p }
  | some 0 => none
  | some (k + 1) => some { out := d.out ++ p, okCalls := some k }

/-- The `stream` struct from the source: buffer, matcher and pending
matches.  The destination is threaded explicitly through `flush`; the
registered frames (`registerFrame`) are recorded as a list of byte counts. -/
structure stream where
  buf : IndexedBuffer
  matcher : multipleMatcher
  matchesMap : Matches
  frames : List Nat

/-- `stream.addMatch` from the source: records the match only if its start
offset has not yet been consumed (`index >= s.buf.CurrentIndex()`). -/
def stream.addMatch (s : stream) (index : Nat) (length : Nat) : stream :=
  if IndexedBuffer.CurrentIndex s.buf ≤ index then
    { s with matchesMap := Matches.Add s.matchesMap index length }
  else s

/-- `stream.Write` from the source: the bytes land in the buffer, the frame
is registered (when nonempty), and the accepted bytes are fed to the
matcher, whose reported matches are recorded via `addMatch`. -/
def stream.Write (s : stream) (p : List Char) : stream × Nat :=
  let bn := IndexedBuffer.Write s.buf p
  let s1 := { s with buf := bn.1,
                     frames := if 0 < bn.2 then s.frames ++ [bn.2] else s.frames }
  let rm := multipleMatcher.Write s1.matcher (p.take bn.2)
  let s2 := { s1 with matcher := rm.2 }
  (rm.1.foldl (fun st r => stream.addMatch st r.1 r.2) s2, bn.2)

/-- Intermediate state of the `flush` loop: the pending matches, the buffer,
the destination, and whether a destination write has failed. -/
structure FlushSt where
  matchesMap : Matches
  buf : IndexedBuffer
  dest : Dest
  err : Bool

/-- The loop body of `stream.flush` from the source, walking offsets
`i, i+1, ...` (`k` iterations remain).  At an offset holding a recorded
match it emits the unprocessed bytes before the match, emits the redaction
marker when those bytes were nonempty or the buffer offset is still 0,
discards the matched bytes, and deletes the match; a failed destination
write aborts immediately with the state reached so far. -/
def flushLoop : Nat → Nat → Matches → IndexedBuffer → Dest → FlushSt
  | 0, _, m, b, d => ⟨m, b, d, false⟩
  | k + 1, i, m, b, d =>
    match Matches.lookup m i with
    | none => flushLoop k (i + 1) m b d
    | some length =>
      let r1 := IndexedBuffer.UpToIndex b i
      match Dest.write d r1.1 with
      | none => ⟨m, r1.2, d, true⟩
      | some d1 =>
        match (if 0 < r1.1.length ∨ IndexedBuffer.CurrentIndex r1.2 = 0
               then Dest.write d1 redactionText else some d1) with
        | none => ⟨m, r1.2, d1, true⟩
        | some d2 =>
          let r2 := IndexedBuffer.UpToIndex r1.2 (i + length)
          flushLoop k (i + 1) (Matches.eraseKey m i) r2.2 d2

/-- `stream.flush` from the source: walks `n` offsets from the buffer's
current index processing matches, then emits all remaining bytes up to
`startIndex + n`.  Returns the updated stream, the destination, and whether
a destination write failed (the Go `error`). -/
def stream.flush (s : stream) (d : Dest) (n : Nat) : stream × Dest × Bool :=
  let startIndex := IndexedBuffer.CurrentIndex s.buf
  let endIndex := startIndex + n
  let r := flushLoop n startIndex s.matchesMap s.buf d
  if r.err then ({ s with matchesMap := r.matchesMap, buf := r.buf }, r.dest, true)
  else
    let fin := IndexedBuffer.UpToIndex r.buf endIndex
    match Dest.write r.dest fin.1 with
    | none => ({ s with matchesMap := r.matchesMap, buf := fin.2 }, r.dest, true)
    | some d2 => ({ s with matchesMap := r.matchesMap, buf := fin.2 }, d2, false)

/-- A fresh `stream` for the given known secret values. -/
def freshStream (secrets : List (List Char)) : stream :=
  { buf := { buffer := [], currentIndex := 0 },
    matcher := { secrets := secrets, history := [] },
    matchesMap := [],
    frames := [] }

/-- Perform a sequence of writes. -/
def writeAll (s : stream) (chunks : List (List Char)) : stream :=
  chunks.foldl (fun st c => (stream.Write st c).1) s

/-- Flush all currently buffered bytes in one `flush` call. -/
def flushAll (s : stream) (d : Dest) : stream × Dest × Bool :=
  stream.flush s d s.buf.buffer.length

/-- End-to-end run: write all chunks to a fresh stream for the given
secrets, flush all buffered bytes to a never-failing destination, and
return the bytes that reached the destination. -/
def runMask (secrets : List (List Char)) (chunks : List (List Char)) : List Char :=
  (flushAll (writeAll (freshStream secrets) chunks) { out := [], okCalls := none }).2.1.out

/-! ## Reference definitions used to state the theorems

The following pure functions restate, directly over the whole input, what
the incremental machinery computes; the simulation theorems below prove the
correspondence. -/

/-- The lengths of the known secret values occurring at position `j` of
`hist`. -/
def candidateLens (secrets : List (List Char)) (hist : List Char) (j : Nat) : List Nat :=
  List.map List.length (List.filter (fun t => occursAtB t hist j) secrets)

/-- The match the stream ends up recording for start offset `j` once the
whole input has been written: the longest known secret value occurring
there, if any. -/
def idealLookup (secrets : List (List Char)) (hist : List Char) (j : Nat) : Option Nat :=
  if (candidateLens secrets hist j).isEmpty then none
  else some (maxNat (candidateLens secrets hist j))

/-- Reference restatement of the emission part of the `flush` loop: walking
`k` offsets from `i` with consumed offset `c` over the recorded matches
`look`, collecting the bytes sent to the destination. -/
def renderLoop (input : List Char) (look : Nat → Option Nat) : Nat → Nat → Nat → List Char
  | 0, _, _ => []
  | k + 1, i, c =>
    match look i with
    | none => renderLoop input look k (i + 1) c
    | some L =>
      let before := (input.drop c).take (i - c)
      (before ++ (if 0 < before.length ∨ max c i = 0 then redactionText else []))
        ++ renderLoop input look k (i + 1) (max c (i + L))

/-- Reference restatement of how the `flush` loop advances the buffer's
consumed offset: each processed match drags it to the end of the match. -/
def renderC (look : Nat → Option Nat) : Nat → Nat → Nat → Nat
  | 0, _, c => c
  | k + 1, i, c =>
    match look i with
    | none => renderC look k (i + 1) c
    | some L => renderC look k (i + 1) (max c (i + L))

/-- Reference restatement of which pending matches the `flush` loop deletes:
every recorded match whose start offset the walk visits. -/
def eraseRange (look : Nat → Option Nat) : Nat → Nat → Matches → Matches
  | 0, _, m => m
  | k + 1, i, m =>
    match look i with
    | none => eraseRange look k (i + 1) m
    | some _ => eraseRange look k (i + 1) (Matches.eraseKey m i)

/-- Single-pass reference renderer: the destination bytes produced by
writing `input` (in any chunking) and flushing everything at once — the
loop emission over the recorded matches followed by the bytes left over up
to the end of the flushed range. -/
def maskRender (secrets : List (List Char)) (input : List Char) : List Char :=
  renderLoop input (idealLookup secrets input) input.length 0 0 ++
    (input.drop (renderC (idealLookup secrets input) input.length 0 0)).take
      (input.length - renderC (idealLookup secrets input) input.length 0 0)

/-- The stream state reached after writing `hist` (in any chunking) to a
fresh stream for `secrets`: the buffer holds `hist` with nothing consumed,
the matcher has seen exactly `hist`, and the recorded matches answer like
`idealLookup`. -/
def goodState (secrets : List (List Char)) (hist : List Char) (s : stream) : Prop :=
  s.buf.buffer = hist ∧ s.buf.currentIndex = 0 ∧
    s.matcher.secrets = secrets ∧ s.matcher.history = hist ∧
    ∀ j, Matches.lookup s.matchesMap j = idealLookup secrets hist j

end Masker

namespace Masker

/-! ## Claims about the individual operations -/

/-- C7: a match whose start offset lies strictly below the buffer's current
consumed offset is silently dropped by `addMatch`: the stream — in
particular its pending-match map — is left completely unchanged, and no
error of any kind is raised. -/
theorem addMatch_already_flushed_is_noop (s : stream) (index length : Nat)
    (h : index < IndexedBuffer.CurrentIndex s.buf) :
    stream.addMatch s index length = s := by
  unfold stream.addMatch
  rw [if_neg (by omega)]

/-- Witness for C7 at a concrete input: a stream whose buffer has already
consumed 3 bytes drops a match reported at offset 1. -/
theorem addMatch_already_flushed_is_noop_witness :
    (1 : Nat) < IndexedBuffer.CurrentIndex
      { buffer := "cd".toList, currentIndex := 3 : IndexedBuffer } ∧
    stream.addMatch
      { buf := { buffer := "cd".toList, currentIndex := 3 },
        matcher := { secrets := ["ab".toList], history := "xxxcd".toList },
        matchesMap := [], frames := [5] } 1 2 =
      { buf := { buffer := "cd".toList, currentIndex := 3 },
        matcher := { secrets := ["ab".toList], history := "xxxcd".toList },
        matchesMap := [], frames := [5] } :=
  ⟨by decide, addMatch_already_flushed_is_noop _ 1 2 (by decide)⟩

/-- C8: consuming up to an index between the current consumed offset and
the total bytes ever written returns exactly the real buffered bytes up to
that index the first time; a second call with the same index returns an
empty sequence and leaves the buffer (hence its consumed offset, now equal
to the index) untouched. -/
theorem upToIndex_idempotent (b : IndexedBuffer) (index : Nat)
    (h1 : b.currentIndex ≤ index) (h2 : index ≤ IndexedBuffer.totalWritten b) :
    (IndexedBuffer.UpToIndex b index).1 = b.buffer.take (index - b.currentIndex) ∧
    (IndexedBuffer.UpToIndex b index).1.length = index - b.currentIndex ∧
    (IndexedBuffer.UpToIndex b index).2.currentIndex = index ∧
    IndexedBuffer.UpToIndex (IndexedBuffer.UpToIndex b index).2 index =
      ([], (IndexedBuffer.UpToIndex b index).2) := by
  unfold IndexedBuffer.UpToIndex IndexedBuffer.totalWritten at *
  rw [if_neg (by omega)]
  refine ⟨rfl, ?_, rfl, ?_⟩
  · simp only [List.length_take]
    omega
  · simp

/-- Witness for C8 at a concrete input: a buffer holding "abcd" at offset 2,
consumed up to index 5 twice. -/
theorem upToIndex_idempotent_witness :
    ((2 : Nat) ≤ 5 ∧ (5 : Nat) ≤ IndexedBuffer.totalWritten
        { buffer := "abcd".toList, currentIndex := 2 }) ∧
    ((IndexedBuffer.UpToIndex { buffer := "abcd".toList, currentIndex := 2 } 5).1 =
        ("abcd".toList).take 3 ∧
      (IndexedBuffer.UpToIndex { buffer := "abcd".toList, currentIndex := 2 } 5).1.length = 3 ∧
      (IndexedBuffer.UpToIndex
          { buffer := "abcd".toList, currentIndex := 2 } 5).2.currentIndex = 5 ∧
      IndexedBuffer.UpToIndex
          (IndexedBuffer.UpToIndex { buffer := "abcd".toList, currentIndex := 2 } 5).2 5 =
        ([], (IndexedBuffer.UpToIndex { buffer := "abcd".toList, currentIndex := 2 } 5).2)) :=
  ⟨⟨by decide, by decide⟩,
    upToIndex_idempotent { buffer := "abcd".toList, currentIndex := 2 } 5
      (by decide) (by decide)⟩

/-- C6 counterexample: consuming up to index 5 on a buffer that has only
ever seen 2 bytes does **not** fail fatally — `UpToIndex` returns normally,
hands back just the 2 remaining bytes, and advances the consumed offset all
the way to 5. -/
theorem upToIndex_beyond_total_counterexample :
    IndexedBuffer.UpToIndex { buffer := "ab".toList, currentIndex := 0 } 5 =
      ("ab".toList, { buffer := [], currentIndex := 5 }) := by
  decide

/-- C6 amended: for an index at least `consumedUpTo` and at most the total
bytes ever written, `UpToIndex` pops exactly `index - consumedUpTo` bytes
and advances `consumedUpTo` to `index`; for an index strictly greater than
the total bytes ever written the call does not fail at all — it returns
normally with just the remaining buffered bytes (fewer than requested) and
still advances `consumedUpTo` to `index`. -/
theorem upToIndex_over_consumption (b : IndexedBuffer) (index : Nat)
    (h1 : b.currentIndex ≤ index) :
    (index ≤ IndexedBuffer.totalWritten b →
      (IndexedBuffer.UpToIndex b index).1 = b.buffer.take (index - b.currentIndex) ∧
      (IndexedBuffer.UpToIndex b index).1.length = index - b.currentIndex ∧
      (IndexedBuffer.UpToIndex b index).2.currentIndex = index) ∧
    (IndexedBuffer.totalWritten b < index →
      (IndexedBuffer.UpToIndex b index).1 = b.buffer ∧
      (IndexedBuffer.UpToIndex b index).1.length < index - b.currentIndex ∧
      (IndexedBuffer.UpToIndex b index).2.currentIndex = index) := by
  unfold IndexedBuffer.UpToIndex IndexedBuffer.totalWritten
  rw [if_neg (by omega)]
  constructor
  · intro hle
    refine ⟨rfl, ?_, rfl⟩
    simp only [List.length_take]
    omega
  · intro hgt
    refine ⟨?_, ?_, rfl⟩
    · exact List.take_of_length_le (by omega)
    · simp only [List.length_take]
      omega

/-- Witness for C6 amended at a concrete input: 2 bytes ever written,
consumed up to index 5. -/
theorem upToIndex_over_consumption_witness :
    (0 : Nat) ≤ 5 ∧
    (IndexedBuffer.totalWritten { buffer := "ab".toList, currentIndex := 0 } < 5 →
      (IndexedBuffer.UpToIndex { buffer := "ab".toList, currentIndex := 0 } 5).1 =
          "ab".toList ∧
      (IndexedBuffer.UpToIndex
          { buffer := "ab".toList, currentIndex := 0 } 5).1.length < 5 - 0 ∧
      (IndexedBuffer.UpToIndex
          { buffer := "ab".toList, currentIndex := 0 } 5).2.currentIndex = 5) :=
  ⟨by decide,
    (upToIndex_over_consumption { buffer := "ab".toList, currentIndex := 0 } 5
      (by decide)).2⟩

end Masker

namespace Masker

/-! ## Concrete end-to-end scenarios -/

/-- C2: with "token123" as known secret, writing "tok" then "en123" and
flushing all buffered bytes produces exactly the same destination bytes as
writing "token123" in a single call followed by the same flush. -/
theorem split_match_chunking_invariance :
    runMask ["token123".toList] ["tok".toList, "en123".toList] =
      runMask ["token123".toList] ["token123".toList] := by
  decide

/-- C4 counterexample: the concrete "sekrit" scenario does **not** produce
`"before <redacted> after"` — the redaction marker the code writes is the
literal `"<redacted by SecretHub>"`. -/
theorem concrete_scenario_counterexample :
    runMask ["sekrit".toList] ["before ".toList, "sek".toList, "rit after".toList] ≠
      "before <redacted> after".toList := by
  decide

/-- C4 amended: with "sekrit" as the only known secret, writing "before ",
"sek", "rit after" and flushing all buffered bytes yields exactly
`"before <redacted by SecretHub> after"` — one marker (the code's literal
marker text), surrounding text intact, byte order preserved. -/
theorem concrete_scenario_masked :
    runMask ["sekrit".toList] ["before ".toList, "sek".toList, "rit after".toList] =
      "before <redacted by SecretHub> after".toList := by
  decide

/-- C3 counterexample: with "ab" as known secret and input "abab", the two
recorded matches are back-to-back (the second starts where the first ends),
yet the destination receives a single redaction marker, not one marker per
match — the second marker is skipped. -/
theorem back_to_back_counterexample :
    runMask ["ab".toList] ["abab".toList] = redactionText ∧
      redactionText ≠ redactionText ++ redactionText := by
  constructor
  · decide
  · decide

/-- C1 counterexample: with `"acted"` as the known secret and input exactly
`"acted"` (so the input contains the secret), the destination bytes are the
redaction marker — which itself contains `"acted"` as a contiguous
substring, so the final destination bytes do contain the secret value. -/
theorem no_leak_counterexample :
    runMask ["acted".toList] ["acted".toList] = redactionText ∧
      redactionText = "<red".toList ++ "acted".toList ++ " by SecretHub>".toList := by
  constructor
  · decide
  · decide

/-- C5 counterexample: a flush of 2 bytes over a buffer at offset 0 holding
"abc" with a recorded match of length 3 at offset 0 advances the consumed
offset to 3, not to 2 — the flush consumes more than `n` bytes when a match
starting inside the range ends beyond it. -/
theorem flush_consumes_exactly_counterexample :
    ((stream.flush
        { buf := { buffer := "abc".toList, currentIndex := 0 },
          matcher := { secrets := ["abc".toList], history := "abc".toList },
          matchesMap := [(0, 3)], frames := [3] }
        { out := [], okCalls := none } 2).1.buf.currentIndex = 3) ∧ (3 : Nat) ≠ 0 + 2 := by
  constructor
  · decide
  · decide

/-- C10: flush is not atomic on destination failure.  With known secret
"ab", after writing "xab" the stream has the match recorded at offset 1;
flushing 3 bytes into a destination that fails on its first write returns
the error with the buffer's consumed offset already advanced from 0 to 1
(the byte 'x' was popped but never reached the destination) and the match
still pending; flushing the remaining 2 bytes again, now into a working
destination, emits nothing — the lost byte is not reproduced and even the
marker is skipped. -/
theorem flush_not_atomic_on_dest_failure :
    (writeAll (freshStream ["ab".toList]) ["xab".toList]).buf.currentIndex = 0 ∧
    Matches.lookup (writeAll (freshStream ["ab".toList]) ["xab".toList]).matchesMap 1 =
      some 2 ∧
    (stream.flush (writeAll (freshStream ["ab".toList]) ["xab".toList])
        { out := [], okCalls := some 0 } 3).2.2 = true ∧
    (stream.flush (writeAll (freshStream ["ab".toList]) ["xab".toList])
        { out := [], okCalls := some 0 } 3).1.buf.currentIndex = 1 ∧
    Matches.lookup
      (stream.flush (writeAll (freshStream ["ab".toList]) ["xab".toList])
          { out := [], okCalls := some 0 } 3).1.matchesMap 1 = some 2 ∧
    (stream.flush (writeAll (freshStream ["ab".toList]) ["xab".toList])
        { out := [], okCalls := some 0 } 3).2.1.out = [] ∧
    (stream.flush
        (stream.flush (writeAll (freshStream ["ab".toList]) ["xab".toList])
            { out := [], okCalls := some 0 } 3).1
        { out := [], okCalls := none } 2).2.1.out = [] := by
  refine ⟨by decide, by decide, by decide, by decide, by decide, by decide, by decide⟩

end Masker

namespace Masker

/-! ## Association-list lemmas for `Matches` -/

theorem Matches.lookup_eraseKey (m : Matches) (i j : Nat) :
    Matches.lookup (Matches.eraseKey m i) j =
      if j = i then none else Matches.lookup m j := by
  induction m with
  | nil =>
    simp only [Matches.eraseKey, List.filter_nil, Matches.lookup]
    split <;> rfl
  | cons e rest ih =>
    obtain ⟨a, L⟩ := e
    by_cases hai : a = i
    · subst hai
      have h1 : Matches.eraseKey ((a, L) :: rest) a = Matches.eraseKey rest a := by
        simp [Matches.eraseKey, List.filter_cons]
      rw [h1, ih]
      by_cases hj : j = a
      · simp [hj]
      · simp [hj, Matches.lookup]
    · have h1 : Matches.eraseKey ((a, L) :: rest) i = (a, L) :: Matches.eraseKey rest i := by
        simp [Matches.eraseKey, List.filter_cons, hai]
      rw [h1]
      by_cases hj : j = a
      · subst hj
        simp [Matches.lookup, hai]
      · simp [Matches.lookup, hj, ih]

theorem Matches.lookup_Add (m : Matches) (i L j : Nat) :
    Matches.lookup (Matches.Add m i L) j =
      if j = i then some L else Matches.lookup m j := by
  unfold Matches.Add
  by_cases hj : j = i
  · simp [Matches.lookup, hj]
  · simp only [Matches.lookup, if_neg hj]
    rw [Matches.lookup_eraseKey, if_neg hj]

theorem Matches.lookup_none_of_not_mem (l : Matches) (j : Nat)
    (h : j ∉ l.map Prod.fst) : Matches.lookup l j = none := by
  induction l with
  | nil => rfl
  | cons e rest ih =>
    obtain ⟨a, L⟩ := e
    simp only [List.map_cons, List.mem_cons] at h
    push_neg at h
    simp only [Matches.lookup, if_neg h.1]
    exact ih h.2

/-- Looking up after folding `Matches.Add` over a report list with distinct
keys: an entry present in the reports wins, otherwise the original map
answers. -/
theorem Matches.lookup_foldl_Add (l : Matches) (m : Matches) (j : Nat)
    (hnd : (l.map Prod.fst).Nodup) :
    Matches.lookup (l.foldl (fun acc r => Matches.Add acc r.1 r.2) m) j =
      match Matches.lookup l j with
      | some L => some L
      | none => Matches.lookup m j := by
  induction l generalizing m with
  | nil => rfl
  | cons e rest ih =>
    obtain ⟨a, L⟩ := e
    simp only [List.map_cons, List.nodup_cons] at hnd
    simp only [List.foldl_cons]
    rw [ih _ (hnd.2)]
    by_cases hj : j = a
    · subst hj
      rw [Matches.lookup_none_of_not_mem rest j hnd.1]
      simp [Matches.lookup, Matches.lookup_Add]
    · simp only [Matches.lookup, if_neg hj]
      cases Matches.lookup rest j with
      | none => simp [Matches.lookup_Add, Matches.lookup_eraseKey, hj]
      | some L2 => rfl

/-! ## `maxNat` lemmas -/

theorem le_maxNat {x : Nat} {l : List Nat} (h : x ∈ l) : x ≤ maxNat l := by
  induction l with
  | nil => cases h
  | cons a rest ih =>
    rcases List.mem_cons.mp h with h | h
    · subst h; exact Nat.le_max_left _ _
    · exact Nat.le_trans (ih h) (Nat.le_max_right _ _)

theorem maxNat_le {b : Nat} {l : List Nat} (h : ∀ x ∈ l, x ≤ b) : maxNat l ≤ b := by
  induction l with
  | nil => exact Nat.zero_le b
  | cons a rest ih =>
    simp only [maxNat, List.foldr_cons]
    exact Nat.max_le.mpr ⟨h a (List.mem_cons_self a rest), ih fun x hx => h x (List.mem_cons_of_mem a hx)⟩

theorem maxNat_mem {l : List Nat} (h : l ≠ []) : maxNat l ∈ l := by
  induction l with
  | nil => exact absurd rfl h
  | cons a rest ih =>
    cases rest with
    | nil => simp [maxNat]
    | cons b rest2 =>
      have hne : b :: rest2 ≠ [] := by simp
      have hm : maxNat (a :: b :: rest2) = Nat.max a (maxNat (b :: rest2)) := rfl
      rcases Nat.le_total a (maxNat (b :: rest2)) with hle | hle
      · have he : maxNat (a :: b :: rest2) = maxNat (b :: rest2) :=
          hm.trans (Nat.max_eq_right hle)
        rw [he]
        exact List.mem_cons_of_mem a (ih hne)
      · have he : maxNat (a :: b :: rest2) = a :=
          hm.trans (Nat.max_eq_left hle)
        rw [he]
        exact List.mem_cons_self _ _

/-! ## Occurrence lemmas -/

theorem occursAtB_iff {t hist : List Char} {j : Nat} :
    occursAtB t hist j = true ↔ t ≠ [] ∧ (hist.drop j).take t.length = t := by
  unfold occursAtB
  rw [Bool.and_eq_true, beq_iff_eq, Bool.not_eq_true', List.isEmpty_eq_false_iff_exists_mem]
  constructor
  · rintro ⟨⟨x, hx⟩, h2⟩
    exact ⟨List.ne_nil_of_mem hx, h2⟩
  · rintro ⟨h1, h2⟩
    rcases List.exists_mem_of_ne_nil t h1 with ⟨x, hx⟩
    exact ⟨⟨x, hx⟩, h2⟩

theorem occursAtB_length_le {t hist : List Char} {j : Nat}
    (h : occursAtB t hist j = true) : j + t.length ≤ hist.length ∧ 0 < t.length := by
  rcases occursAtB_iff.mp h with ⟨h1, h2⟩
  have hlen := congrArg List.length h2
  rw [List.length_take, List.length_drop] at hlen
  have hpos : 0 < t.length := List.length_pos.mpr h1
  omega

/-- An occurrence that fits inside `hist` is unaffected by appending more
bytes after `hist`. -/
theorem occursAtB_append {t hist p : List Char} {j : Nat}
    (h : j + t.length ≤ hist.length) :
    occursAtB t (hist ++ p) j = occursAtB t hist j := by
  unfold occursAtB
  congr 1
  have hdrop : (hist ++ p).drop j = hist.drop j ++ p :=
    List.drop_append_of_le_length (by omega)
  rw [hdrop, List.take_append_of_le_length]
  rw [List.length_drop]; omega

theorem occursAtB_of_ge_length {t hist : List Char} {j : Nat}
    (h : hist.length ≤ j) : occursAtB t hist j = false := by
  unfold occursAtB
  rw [List.drop_eq_nil_of_le h]
  cases t with
  | nil => simp
  | cons x ts => simp

end Masker

namespace Masker

/-! ## Characterizing the matcher reports against `idealLookup` -/

theorem mem_candidateLens {secrets : List (List Char)} {hist : List Char} {j x : Nat} :
    x ∈ candidateLens secrets hist j ↔
      ∃ t ∈ secrets, occursAtB t hist j = true ∧ t.length = x := by
  unfold candidateLens
  simp only [List.mem_map, List.mem_filter]
  constructor
  · rintro ⟨t, ⟨ht, hocc⟩, hlen⟩
    exact ⟨t, ht, hocc, hlen⟩
  · rintro ⟨t, ht, hocc, hlen⟩
    exact ⟨t, ⟨ht, hocc⟩, hlen⟩

theorem mem_newLens {secrets : List (List Char)} {hist : List Char} {oldLen j x : Nat} :
    x ∈ newLens secrets hist oldLen j ↔
      ∃ t ∈ secrets, occursAtB t hist j = true ∧ oldLen < j + t.length ∧ t.length = x := by
  unfold newLens
  simp only [List.mem_map, List.mem_filter, Bool.and_eq_true, decide_eq_true_eq]
  constructor
  · rintro ⟨t, ⟨ht, hocc, hnew⟩, hlen⟩
    exact ⟨t, ht, hocc, hnew, hlen⟩
  · rintro ⟨t, ht, hocc, hnew, hlen⟩
    exact ⟨t, ⟨ht, hocc, hnew⟩, hlen⟩

theorem idealLookup_of_ge_length {secrets : List (List Char)} {hist : List Char} {j : Nat}
    (h : hist.length ≤ j) : idealLookup secrets hist j = none := by
  unfold idealLookup
  have hnil : candidateLens secrets hist j = [] := by
    unfold candidateLens
    rw [List.filter_eq_nil_iff.mpr, List.map_nil]
    intro t ht
    simp [occursAtB_of_ge_length h]
  rw [hnil]
  rfl

theorem idealLookup_bound {secrets : List (List Char)} {hist : List Char} {j L : Nat}
    (h : idealLookup secrets hist j = some L) : j + L ≤ hist.length ∧ 0 < L := by
  unfold idealLookup at h
  by_cases hemp : (candidateLens secrets hist j).isEmpty
  · rw [if_pos hemp] at h; cases h
  · rw [if_neg hemp] at h
    have hL : L = maxNat (candidateLens secrets hist j) := (Option.some.injEq _ _ ▸ h).symm
    have hne : candidateLens secrets hist j ≠ [] := by
      intro hc; rw [hc] at hemp; exact hemp rfl
    have hmem := maxNat_mem hne
    rw [← hL] at hmem
    rcases mem_candidateLens.mp hmem with ⟨t, ht, hocc, hlen⟩
    have := occursAtB_length_le hocc
    omega

/-- A report present at `j` equals what `idealLookup` records there: the
newly completed occurrences at a start offset are strictly longer than all
earlier ones, so the per-call maximum is the overall maximum. -/
theorem reportAt_some_ideal {secrets : List (List Char)} {hist : List Char} {oldLen j L : Nat}
    (h : reportAt secrets hist oldLen j = some L) :
    idealLookup secrets hist j = some L := by
  unfold reportAt at h
  by_cases hemp : (newLens secrets hist oldLen j).isEmpty
  · rw [if_pos hemp] at h; cases h
  · rw [if_neg hemp] at h
    have hL : maxNat (newLens secrets hist oldLen j) = L := Option.some.injEq _ _ ▸ h
    have hne : newLens secrets hist oldLen j ≠ [] := by
      intro hc; rw [hc] at hemp; exact hemp rfl
    have hnewsub : ∀ x ∈ newLens secrets hist oldLen j, x ∈ candidateLens secrets hist j := by
      intro x hx
      rcases mem_newLens.mp hx with ⟨t, ht, hocc, hnew, hlen⟩
      exact mem_candidateLens.mpr ⟨t, ht, hocc, hlen⟩
    have hmaxmem := maxNat_mem hne
    have hallne : candidateLens secrets hist j ≠ [] :=
      List.ne_nil_of_mem (hnewsub _ hmaxmem)
    have hge : maxNat (newLens secrets hist oldLen j) ≤ maxNat (candidateLens secrets hist j) :=
      le_maxNat (hnewsub _ hmaxmem)
    have hle : maxNat (candidateLens secrets hist j) ≤ maxNat (newLens secrets hist oldLen j) := by
      apply maxNat_le
      intro x hx
      rcases mem_candidateLens.mp hx with ⟨t, ht, hocc, hlen⟩
      by_cases hcase : oldLen < j + t.length
      · exact le_maxNat (mem_newLens.mpr ⟨t, ht, hocc, hcase, hlen⟩)
      · rcases mem_newLens.mp hmaxmem with ⟨t2, ht2, hocc2, hnew2, hlen2⟩
        omega
    unfold idealLookup
    rw [if_neg]
    · rw [Nat.le_antisymm hle hge, hL]
    · intro hc
      apply hallne
      cases hc2 : candidateLens secrets hist j with
      | nil => rfl
      | cons y ys => rw [hc2] at hc; cases hc

/-- When no occurrence at `j` is newly completed by appending `p`, the
recorded match at `j` is unchanged. -/
theorem reportAt_none_ideal {secrets : List (List Char)} {hist p : List Char} {j : Nat}
    (h : reportAt secrets (hist ++ p) hist.length j = none) :
    idealLookup secrets (hist ++ p) j = idealLookup secrets hist j := by
  have hlens : newLens secrets (hist ++ p) hist.length j = [] := by
    unfold reportAt at h
    by_cases hemp : (newLens secrets (hist ++ p) hist.length j).isEmpty
    · cases hc : newLens secrets (hist ++ p) hist.length j with
      | nil => rfl
      | cons y ys => rw [hc] at hemp; cases hemp
    · rw [if_neg hemp] at h; cases h
  have hnone : ∀ t ∈ secrets,
      ¬(occursAtB t (hist ++ p) j = true ∧ hist.length < j + t.length) := by
    intro t ht hc
    have : t.length ∈ newLens secrets (hist ++ p) hist.length j :=
      mem_newLens.mpr ⟨t, ht, hc.1, hc.2, rfl⟩
    rw [hlens] at this
    cases this
  have hcand : candidateLens secrets (hist ++ p) j = candidateLens secrets hist j := by
    unfold candidateLens
    congr 1
    apply List.filter_congr
    intro t ht
    by_cases hb : occursAtB t (hist ++ p) j = true
    · have hfit : j + t.length ≤ hist.length := by
        by_contra hgt
        exact hnone t ht ⟨hb, by omega⟩
      exact occursAtB_append hfit
    · have hb2 : occursAtB t hist j = false := by
        by_contra hb2
        have hb2' : occursAtB t hist j = true := by
          cases hx : occursAtB t hist j
          · exact absurd hx hb2
          · rfl
        have hfit := (occursAtB_length_le hb2').1
        rw [occursAtB_append hfit] at hb
        exact hb hb2'
      rw [hb2]
      cases hx : occursAtB t (hist ++ p) j
      · rfl
      · exact absurd hx hb
  unfold idealLookup
  rw [hcand]

end Masker

namespace Masker

/-! ## The state reached after a sequence of writes -/

theorem keys_filterMap_sublist (q : Nat → Option Nat) (l : List Nat) :
    (((l.filterMap (fun j => (q j).map (fun L => (j, L)))).map Prod.fst)).Sublist l := by
  induction l with
  | nil => simp
  | cons a l ih =>
    cases hq : q a with
    | none => simpa [List.filterMap_cons, hq] using List.Sublist.cons a ih
    | some L => simpa [List.filterMap_cons, hq] using List.Sublist.cons₂ a ih

theorem lookup_filterMap_mem (q : Nat → Option Nat) (l : List Nat) (j : Nat)
    (hnd : l.Nodup) :
    Matches.lookup (l.filterMap (fun i => (q i).map (fun L => (i, L)))) j =
      if j ∈ l then q j else none := by
  induction l with
  | nil => simp [Matches.lookup]
  | cons a l ih =>
    simp only [List.nodup_cons] at hnd
    cases hq : q a with
    | none =>
      rw [List.filterMap_cons]
      simp only [hq, Option.map_none']
      rw [ih hnd.2]
      by_cases hj : j = a
      · subst hj
        rw [if_neg hnd.1, if_pos (List.mem_cons_self _ _), hq]
      · by_cases hjl : j ∈ l
        · rw [if_pos hjl, if_pos (List.mem_cons_of_mem a hjl)]
        · rw [if_neg hjl, if_neg (by simp [hj, hjl])]
    | some L =>
      rw [List.filterMap_cons]
      simp only [hq, Option.map_some']
      by_cases hj : j = a
      · subst hj
        rw [if_pos (List.mem_cons_self _ _), hq]
        simp [Matches.lookup]
      · simp only [Matches.lookup, if_neg hj]
        rw [ih hnd.2]
        by_cases hjl : j ∈ l
        · rw [if_pos hjl, if_pos (List.mem_cons_of_mem a hjl)]
        · rw [if_neg hjl, if_neg (by simp [hj, hjl])]

theorem foldl_addMatch_at_zero (l : List (Nat × Nat)) :
    ∀ st : stream, st.buf.currentIndex = 0 →
    l.foldl (fun st r => stream.addMatch st r.1 r.2) st =
      { st with matchesMap := l.foldl (fun m r => Matches.Add m r.1 r.2) st.matchesMap } := by
  induction l with
  | nil => intro st h; rfl
  | cons r l ih =>
    intro st h
    have hadd : stream.addMatch st r.1 r.2 =
        { st with matchesMap := Matches.Add st.matchesMap r.1 r.2 } := by
      unfold stream.addMatch
      rw [if_pos]
      rw [IndexedBuffer.CurrentIndex, h]
      exact Nat.zero_le _
    simp only [List.foldl_cons, hadd]
    exact ih _ h

theorem write_good {secrets : List (List Char)} {hist : List Char} {s : stream}
    (h : goodState secrets hist s) (p : List Char) :
    goodState secrets (hist ++ p) (stream.Write s p).1 := by
  obtain ⟨hbuf, hidx, hsec, hhist, hlook⟩ := h
  unfold stream.Write
  simp only [IndexedBuffer.Write, List.take_length]
  rw [foldl_addMatch_at_zero (multipleMatcher.Write s.matcher p).1
      { buf := { buffer := s.buf.buffer ++ p, currentIndex := s.buf.currentIndex },
        matcher := (multipleMatcher.Write s.matcher p).2,
        matchesMap := s.matchesMap,
        frames := if 0 < p.length then s.frames ++ [p.length] else s.frames }
      hidx]
  unfold multipleMatcher.Write
  refine ⟨by simp [hbuf], by simp [hidx], by simp [hsec], by simp [hhist], ?_⟩
  intro j
  simp only
  rw [Matches.lookup_foldl_Add]
  · rw [hsec, hhist]
    rw [lookup_filterMap_mem _ _ _ (List.nodup_range _)]
    by_cases hj : j ∈ List.range (hist ++ p).length
    · rw [if_pos hj]
      cases hrep : reportAt secrets (hist ++ p) hist.length j with
      | some L =>
        simp only [Option.map_some']
        exact (reportAt_some_ideal hrep).symm
      | none =>
        simp only [Option.map_none']
        rw [hlook j, reportAt_none_ideal hrep]
    · rw [if_neg hj]
      simp only
      rw [hlook j]
      have hjN : (hist ++ p).length ≤ j := by
        by_contra hc
        exact hj (List.mem_range.mpr (by omega))
      have h1 : idealLookup secrets (hist ++ p) j = none := idealLookup_of_ge_length hjN
      have h2 : idealLookup secrets hist j = none := by
        apply idealLookup_of_ge_length
        rw [List.length_append] at hjN
        omega
      rw [h1, h2]
  · exact List.Nodup.sublist (keys_filterMap_sublist _ _) (List.nodup_range _)

theorem freshStream_good (secrets : List (List Char)) :
    goodState secrets [] (freshStream secrets) := by
  refine ⟨rfl, rfl, rfl, rfl, ?_⟩
  intro j
  have h : idealLookup secrets [] j = none :=
    idealLookup_of_ge_length (by simp)
  rw [h]
  rfl

theorem writeAll_good {secrets : List (List Char)} :
    ∀ (chunks : List (List Char)) (hist : List Char) (s : stream),
      goodState secrets hist s →
      goodState secrets (hist ++ chunks.flatten) (writeAll s chunks) := by
  intro chunks
  induction chunks with
  | nil =>
    intro hist s h
    simpa [writeAll] using h
  | cons c chunks ih =>
    intro hist s h
    have h1 := write_good h c
    have h2 := ih (hist ++ c) _ h1
    simpa [writeAll, List.append_assoc] using h2

theorem writeAll_fresh_good (secrets : List (List Char)) (chunks : List (List Char)) :
    goodState secrets chunks.flatten (writeAll (freshStream secrets) chunks) := by
  have h := writeAll_good chunks [] (freshStream secrets) (freshStream_good secrets)
  simpa using h

end Masker

namespace Masker

/-! ## Simulation: the flush loop against the reference renderer -/

theorem UpToIndex_drop (input : List Char) (c idx : Nat) :
    IndexedBuffer.UpToIndex { buffer := input.drop c, currentIndex := c } idx =
      ((input.drop c).take (idx - c),
        { buffer := input.drop (max c idx), currentIndex := max c idx }) := by
  unfold IndexedBuffer.UpToIndex
  by_cases h : idx < c
  · rw [if_pos h]
    have h1 : idx - c = 0 := by omega
    have h2 : max c idx = c := Nat.max_eq_left (by omega)
    rw [h1, h2]
    simp
  · rw [if_neg h]
    have h2 : max c idx = idx := Nat.max_eq_right (by omega)
    have h4 : (input.drop c).drop (idx - c) = input.drop idx := by
      rw [List.drop_drop]
      congr 1
      omega
    rw [h2]
    simp only [h4]

theorem Dest.write_none (dout p : List Char) :
    Dest.write { out := dout, okCalls := none } p =
      some { out := dout ++ p, okCalls := none } := rfl

/-- The flush loop, run on a well-formed buffer over `input` with a
destination that never fails, performs exactly what the reference renderer
describes: it emits `renderLoop`, advances the consumed offset to
`renderC`, deletes `eraseRange`, and reports no error. -/
theorem flushLoop_sim (input : List Char) (look : Nat → Option Nat) :
    ∀ (k i c : Nat) (m : Matches) (dout : List Char),
      (∀ j, i ≤ j → Matches.lookup m j = look j) →
      flushLoop k i m { buffer := input.drop c, currentIndex := c }
          { out := dout, okCalls := none } =
        { matchesMap := eraseRange look k i m,
          buf := { buffer := input.drop (renderC look k i c),
                   currentIndex := renderC look k i c },
          dest := { out := dout ++ renderLoop input look k i c, okCalls := none },
          err := false } := by
  intro k
  induction k with
  | zero =>
    intro i c m dout hlook
    simp [flushLoop, eraseRange, renderC, renderLoop]
  | succ k ih =>
    intro i c m dout hlook
    have hmi : Matches.lookup m i = look i := hlook i (Nat.le_refl i)
    cases hli : look i with
    | none =>
      simp only [flushLoop, eraseRange, renderC, renderLoop, hmi, hli]
      exact ih (i + 1) c m dout (fun j hj => hlook j (by omega))
    | some L =>
      simp only [flushLoop, eraseRange, renderC, renderLoop, hmi, hli]
      rw [UpToIndex_drop]
      simp only [Dest.write_none, IndexedBuffer.CurrentIndex]
      have hmax : max (max c i) (i + L) = max c (i + L) := by
        rw [Nat.max_assoc]
        congr 1
        exact Nat.max_eq_right (Nat.le_add_right i L)
      have hlook2 : ∀ j, i + 1 ≤ j → Matches.lookup (Matches.eraseKey m i) j = look j := by
        intro j hj
        rw [Matches.lookup_eraseKey, if_neg (by omega)]
        exact hlook j (by omega)
      by_cases hcond : 0 < ((input.drop c).take (i - c)).length ∨ max c i = 0
      · rw [if_pos hcond]
        simp only [Dest.write_none]
        rw [UpToIndex_drop, hmax]
        rw [ih (i + 1) (max c (i + L)) (Matches.eraseKey m i) _ hlook2]
        rw [if_pos hcond]
        simp [List.append_assoc]
      · rw [if_neg hcond]
        simp only
        rw [UpToIndex_drop, hmax]
        rw [ih (i + 1) (max c (i + L)) (Matches.eraseKey m i) _ hlook2]
        rw [if_neg hcond]
        simp [List.append_assoc]

end Masker

namespace Masker

/-- A full `flush` call on a well-formed stream with a never-failing
destination, characterized by the reference renderer. -/
theorem flush_sim (input : List Char) (look : Nat → Option Nat)
    (s : stream) (dout : List Char) (n c : Nat)
    (hb : s.buf = { buffer := input.drop c, currentIndex := c })
    (hlook : ∀ j, c ≤ j → Matches.lookup s.matchesMap j = look j) :
    stream.flush s { out := dout, okCalls := none } n =
      ({ s with matchesMap := eraseRange look n c s.matchesMap,
                buf := { buffer := input.drop (max (renderC look n c c) (c + n)),
                         currentIndex := max (renderC look n c c) (c + n) } },
       { out := dout ++ renderLoop input look n c c ++
           (input.drop (renderC look n c c)).take (c + n - renderC look n c c),
         okCalls := none },
       false) := by
  unfold stream.flush
  rw [hb]
  simp only [IndexedBuffer.CurrentIndex]
  rw [flushLoop_sim input look n c c s.matchesMap dout hlook]
  simp only
  rw [UpToIndex_drop]
  simp only [Dest.write_none]
  simp [List.append_assoc]

end Masker

namespace Masker

/-- The end-to-end run equals the single-pass reference rendering of the
concatenated input; in particular the destination bytes depend only on the
concatenation of the writes, never on the chunking. -/
theorem runMask_eq_maskRender (secrets : List (List Char)) (chunks : List (List Char)) :
    runMask secrets chunks = maskRender secrets chunks.flatten := by
  obtain ⟨hbuf, hidx, hsec, hhist, hlook⟩ := writeAll_fresh_good secrets chunks
  unfold runMask flushAll
  have hb : (writeAll (freshStream secrets) chunks).buf =
      { buffer := chunks.flatten.drop 0, currentIndex := 0 } := by
    cases hsb : (writeAll (freshStream secrets) chunks).buf with
    | mk bb bc =>
      rw [hsb] at hbuf hidx
      simp only at hbuf hidx
      rw [hbuf, hidx, List.drop_zero]
  have hn : (writeAll (freshStream secrets) chunks).buf.buffer.length =
      chunks.flatten.length := by rw [hbuf]
  rw [flush_sim chunks.flatten (idealLookup secrets chunks.flatten) _ [] _ 0 hb
    (fun j _ => hlook j)]
  unfold maskRender
  simp only [hn, List.drop_zero, Nat.zero_add, List.nil_append]

end Masker

namespace Masker

/-! ## Render lemmas -/

theorem renderC_mono (look : Nat → Option Nat) :
    ∀ k i c, c ≤ renderC look k i c := by
  intro k
  induction k with
  | zero => intro i c; simp [renderC]
  | succ k ih =>
    intro i c
    cases hli : look i with
    | none =>
      simp only [renderC, hli]
      exact ih (i + 1) c
    | some L =>
      simp only [renderC, hli]
      exact le_trans (Nat.le_max_left c (i + L)) (ih (i + 1) (max c (i + L)))

theorem renderC_reaches (look : Nat → Option Nat) :
    ∀ k i c j L, i ≤ j → j < i + k → look j = some L →
      j + L ≤ renderC look k i c := by
  intro k
  induction k with
  | zero => intro i c j L h1 h2 h3; omega
  | succ k ih =>
    intro i c j L h1 h2 h3
    by_cases hj : j = i
    · subst hj
      simp only [renderC, h3]
      exact le_trans (Nat.le_max_right c (j + L)) (renderC_mono look k (j + 1) (max c (j + L)))
    · cases hli : look i with
      | none =>
        simp only [renderC, hli]
        exact ih (i + 1) c j L (by omega) (by omega) h3
      | some L0 =>
        simp only [renderC, hli]
        exact ih (i + 1) (max c (i + L0)) j L (by omega) (by omega) h3

/-- Once the consumed offset has passed every remaining recorded match
start (and is nonzero), the rest of the walk emits nothing: each such match
has an empty "before" segment and its marker is skipped. -/
theorem renderLoop_quiet (input : List Char) (look : Nat → Option Nat) :
    ∀ k i c, 0 < c →
      (∀ j L, i ≤ j → look j = some L → j ≤ c) →
      renderLoop input look k i c = [] := by
  intro k
  induction k with
  | zero => intro i c hc hj; rfl
  | succ k ih =>
    intro i c hc hj
    cases hli : look i with
    | none =>
      simp only [renderLoop, hli]
      exact ih (i + 1) c hc (fun j L h1 h2 => hj j L (by omega) h2)
    | some L =>
      have hic : i ≤ c := hj i L (Nat.le_refl i) hli
      simp only [renderLoop, hli]
      have hbef : (input.drop c).take (i - c) = [] := by
        rw [show i - c = 0 by omega]
        exact List.take_zero _
      rw [hbef]
      have hcond : ¬(0 < ([] : List Char).length ∨ max c i = 0) := by
        rintro (h | h)
        · exact absurd h (by simp)
        · have := Nat.le_max_left c i
          omega
      rw [if_neg hcond]
      simp only [List.append_nil, List.nil_append]
      exact ih (i + 1) (max c (i + L))
        (lt_of_lt_of_le hc (Nat.le_max_left c (i + L)))
        (fun j L2 h1 h2 =>
          le_trans (hj j L2 (by omega) h2) (Nat.le_max_left c (i + L)))

/-! ## Inversion lemmas for `idealLookup` -/

theorem idealLookup_eq_max {secrets : List (List Char)} {hist : List Char} {j : Nat}
    (hne : candidateLens secrets hist j ≠ []) :
    idealLookup secrets hist j = some (maxNat (candidateLens secrets hist j)) := by
  unfold idealLookup
  cases hc : candidateLens secrets hist j with
  | nil => exact absurd hc hne
  | cons a l => rfl

theorem idealLookup_some_inv {secrets : List (List Char)} {hist : List Char} {j L : Nat}
    (h : idealLookup secrets hist j = some L) :
    candidateLens secrets hist j ≠ [] ∧ maxNat (candidateLens secrets hist j) = L := by
  unfold idealLookup at h
  by_cases hemp : (candidateLens secrets hist j).isEmpty
  · rw [if_pos hemp] at h; cases h
  · rw [if_neg hemp] at h
    refine ⟨?_, Option.some.injEq _ _ ▸ h⟩
    intro hc; rw [hc] at hemp; exact hemp rfl

/-- An input that is itself a known secret is recorded at offset 0 with its
full length (no longer value can fit). -/
theorem idealLookup_self {secrets : List (List Char)} {input : List Char}
    (hmem : input ∈ secrets) (hne : input ≠ []) :
    idealLookup secrets input 0 = some input.length := by
  have hocc : occursAtB input input 0 = true := occursAtB_iff.mpr ⟨hne, by simp⟩
  have hmeml : input.length ∈ candidateLens secrets input 0 :=
    mem_candidateLens.mpr ⟨input, hmem, hocc, rfl⟩
  have hne2 : candidateLens secrets input 0 ≠ [] := List.ne_nil_of_mem hmeml
  rw [idealLookup_eq_max hne2]
  congr 1
  apply Nat.le_antisymm
  · apply maxNat_le
    intro x hx
    rcases mem_candidateLens.mp hx with ⟨t, ht, hocc2, hlen⟩
    have := occursAtB_length_le hocc2
    omega
  · exact le_maxNat hmeml

theorem candidateLens_single_mem {s hist : List Char} {j x : Nat}
    (h : x ∈ candidateLens [s] hist j) : x = s.length := by
  rcases mem_candidateLens.mp h with ⟨t, ht, hocc, hlen⟩
  have hts : t = s := by simpa using ht
  rw [hts] at hlen
  omega

theorem idealLookup_single_eq {s hist : List Char} {j : Nat}
    (hocc : occursAtB s hist j = true) :
    idealLookup [s] hist j = some s.length := by
  have hmeml : s.length ∈ candidateLens [s] hist j :=
    mem_candidateLens.mpr ⟨s, by simp, hocc, rfl⟩
  have hne2 : candidateLens [s] hist j ≠ [] := List.ne_nil_of_mem hmeml
  rw [idealLookup_eq_max hne2]
  congr 1
  exact candidateLens_single_mem (maxNat_mem hne2)

theorem idealLookup_single_len {s hist : List Char} {j L : Nat}
    (h : idealLookup [s] hist j = some L) : L = s.length := by
  obtain ⟨hne2, hmax⟩ := idealLookup_some_inv h
  have hm := maxNat_mem hne2
  rw [hmax] at hm
  exact candidateLens_single_mem hm

/-- When offset 0 starts a recorded match and every other recorded match
starts no later than that first match ends, rendering the whole input
yields exactly one redaction marker. -/
theorem maskRender_single_marker {secrets : List (List Char)} {input : List Char} {L0 : Nat}
    (hlen : 0 < input.length)
    (h0 : idealLookup secrets input 0 = some L0) (hL0 : 0 < L0)
    (hbound : ∀ j L, 1 ≤ j → idealLookup secrets input j = some L → j ≤ L0)
    (hreach : input.length ≤ renderC (idealLookup secrets input) input.length 0 0) :
    maskRender secrets input = redactionText := by
  unfold maskRender
  have hfinal : (input.drop (renderC (idealLookup secrets input) input.length 0 0)).take
      (input.length - renderC (idealLookup secrets input) input.length 0 0) = [] := by
    rw [show input.length - renderC (idealLookup secrets input) input.length 0 0 = 0
      by omega]
    exact List.take_zero _
  rw [hfinal, List.append_nil]
  obtain ⟨k, hk⟩ : ∃ k, input.length = k + 1 := ⟨input.length - 1, by omega⟩
  rw [hk]
  simp only [renderLoop, h0]
  have hmax0 : max 0 (0 + L0) = L0 := by simp
  rw [hmax0]
  have hbef : (input.drop 0).take (0 - 0) = [] := by simp
  rw [hbef]
  rw [if_pos (Or.inr (by simp))]
  have hquiet : renderLoop input (idealLookup secrets input) k 1 L0 = [] := by
    apply renderLoop_quiet input _ k 1 L0 hL0
    intro j L h1 h2
    exact hbound j L h1 h2
  rw [hquiet]
  simp

end Masker

namespace Masker

/-- C1 amended: for every set of known secret values and every chunking of
the input into writes, the bytes reaching the destination after flushing
all buffered bytes depend only on the concatenated input and equal the
single-pass rendering in which every offset starting a recorded match has
its longest matched span dropped (matched bytes never reach the
destination) and replaced by at most one redaction marker — the marker is
emitted exactly when the match was preceded by unprocessed plain bytes or
the buffer offset is still 0, so adjacent matches can share one marker, and
the output is not in general free of the secret as a substring (the marker
text itself may contain it). -/
theorem no_leak_render_characterization (secrets : List (List Char))
    (chunks : List (List Char)) :
    runMask secrets chunks = maskRender secrets chunks.flatten :=
  runMask_eq_maskRender secrets chunks

/-- C3 amended: when two recorded matches are back-to-back the destination
does get the marker for the first of them (under the usual rule), but the
second match's marker is skipped — no plain bytes precede it and the buffer
offset is no longer 0 — so a flush of a doubled secret emits exactly one
redaction marker for the two matches. -/
theorem back_to_back_matches_share_marker (s : List Char) (hne : s ≠ []) :
    runMask [s] [s ++ s] = redactionText := by
  rw [runMask_eq_maskRender]
  have hfl : ([s ++ s] : List (List Char)).flatten = s ++ s := by simp
  rw [hfl]
  have hslen : 0 < s.length := List.length_pos.mpr hne
  have hocc0 : occursAtB s (s ++ s) 0 = true :=
    occursAtB_iff.mpr ⟨hne, by simp [List.take_left]⟩
  have hoccm : occursAtB s (s ++ s) s.length = true :=
    occursAtB_iff.mpr ⟨hne, by simp [List.drop_left]⟩
  have hlen2 : 0 < (s ++ s).length := by
    rw [List.length_append]; omega
  refine maskRender_single_marker hlen2 (idealLookup_single_eq hocc0) hslen ?_ ?_
  · intro j L h1 h2
    have hL := idealLookup_single_len h2
    have hb := idealLookup_bound h2
    rw [List.length_append] at hb
    omega
  · have h := renderC_reaches (idealLookup [s] (s ++ s)) (s ++ s).length 0 0 s.length
      s.length (Nat.zero_le _) (by rw [List.length_append]; omega)
      (idealLookup_single_eq hoccm)
    rw [List.length_append] at h ⊢
    omega

/-- Witness for C3 amended at a concrete input: secret "ab", input "abab". -/
theorem back_to_back_matches_share_marker_witness :
    "ab".toList ≠ [] ∧
      runMask ["ab".toList] ["ab".toList ++ "ab".toList] = redactionText :=
  ⟨by decide, back_to_back_matches_share_marker "ab".toList (by decide)⟩

/-- C9: if the total input written to a fresh MaskedStream (in any
chunking) is exactly one of the known secret values, with no bytes before
it, flushing all buffered bytes yields exactly one redaction marker — no
missing marker, no duplicate, no leading artifact. -/
theorem leading_secret_single_marker (secrets : List (List Char))
    (chunks : List (List Char)) (hmem : chunks.flatten ∈ secrets)
    (hne : chunks.flatten ≠ []) :
    runMask secrets chunks = redactionText := by
  rw [runMask_eq_maskRender]
  have hlen : 0 < chunks.flatten.length := List.length_pos.mpr hne
  refine maskRender_single_marker hlen (idealLookup_self hmem hne) hlen ?_ ?_
  · intro j L h1 h2
    have := idealLookup_bound h2
    omega
  · have h := renderC_reaches (idealLookup secrets chunks.flatten) chunks.flatten.length
      0 0 0 chunks.flatten.length (Nat.le_refl 0) (by omega)
      (idealLookup_self hmem hne)
    omega

/-- Witness for C9 at a concrete input: secret "ab" written as "a" then
"b". -/
theorem leading_secret_single_marker_witness :
    (["a".toList, "b".toList] : List (List Char)).flatten ∈ ["ab".toList] ∧
      (["a".toList, "b".toList] : List (List Char)).flatten ≠ [] ∧
      runMask ["ab".toList] ["a".toList, "b".toList] = redactionText :=
  ⟨by decide, by decide,
    leading_secret_single_marker ["ab".toList] ["a".toList, "b".toList]
      (by decide) (by decide)⟩

theorem drop_replicate_append (c : Nat) (l : List Char) :
    (List.replicate c 'x' ++ l).drop c = l := by
  have h := List.drop_left (List.replicate c 'x') l
  rwa [List.length_replicate] at h

/-- C5 amended: with a destination that does not fail, `flush n` returns no
error and advances the buffer's consumed offset to the maximum of
`start + n` and the furthest end reached by the processed matches
(`renderC`) — in particular to at least `start + n`, and strictly past
`start + n` exactly when a recorded match starting inside the range ends
beyond it. -/
theorem flush_advances_to_match_end (s : stream) (dout : List Char) (n : Nat) :
    (stream.flush s { out := dout, okCalls := none } n).2.2 = false ∧
    (stream.flush s { out := dout, okCalls := none } n).1.buf.currentIndex =
      max (renderC (Matches.lookup s.matchesMap) n s.buf.currentIndex s.buf.currentIndex)
        (s.buf.currentIndex + n) ∧
    s.buf.currentIndex + n ≤
      (stream.flush s { out := dout, okCalls := none } n).1.buf.currentIndex := by
  have hb : s.buf =
      { buffer := (List.replicate s.buf.currentIndex 'x' ++ s.buf.buffer).drop
          s.buf.currentIndex,
        currentIndex := s.buf.currentIndex } := by
    rw [drop_replicate_append]
  rw [flush_sim (List.replicate s.buf.currentIndex 'x' ++ s.buf.buffer)
    (Matches.lookup s.matchesMap) s dout n s.buf.currentIndex hb (fun j _ => rfl)]
  exact ⟨rfl, rfl, Nat.le_max_right _ _⟩

end Masker
